import Mathlib

/-
Verification of the ledger core of a simple peer-to-peer blockchain
(`blockchain.py`).  The Python classes `Block` and `Blockchain` are shallowly
embedded: the chain is a `List Block`, money amounts are modelled as exact
integers (the Python code uses floats but no verified property depends on
rounding), timestamps are natural numbers (they only flow into the hash), and
the SHA-256 digest is an arbitrary parameter `h : HashFn` (the digest function
is only ever applied, never inverted, by the code under verification).
Stateful methods become functions from the chain to the new chain; a Python
exception becomes `Except.error`.
-/

namespace SimpleBlockchain

/-- A transaction dictionary `{sender, recipient, amount}`. -/
structure Tx where
  sender : String
  recipient : String
  amount : Int
deriving Repr, DecidableEq

/-- Type of the block digest function.  It receives exactly the fields that
`Block.calculate_hash` serializes: index, timestamp, transaction,
previous_hash.  The concrete program instantiates it with SHA-256 over a
canonical JSON encoding; every verified property holds for an arbitrary
digest function. -/
def HashFn : Type := Nat → Nat → Tx → String → String

/-- A block record, with the stored `hash` field kept separate from the
recomputable digest (deserialization may overwrite it, as
`Block.from_dict` does). -/
structure Block where
  index : Nat
  timestamp : Nat
  transaction : Tx
  previous_hash : String
  hash : String
deriving Repr, DecidableEq

/-- `Block.calculate_hash`: digest of the four content fields. -/
def calculate_hash (h : HashFn) (b : Block) : String :=
  h b.index b.timestamp b.transaction b.previous_hash

/-- `Block.__init__`: a freshly constructed block stores the digest of its
own fields in `hash`. -/
def mkBlock (h : HashFn) (index : Nat) (timestamp : Nat) (tx : Tx)
    (previous_hash : String) : Block :=
  { index := index, timestamp := timestamp, transaction := tx,
    previous_hash := previous_hash,
    hash := h index timestamp tx previous_hash }

/-- `Blockchain.users`: the fixed identity roster. -/
def users : List String := ["alice", "bob", "charlie", "dave"]

/-- The balances dictionary of `Blockchain.calculate_balances`, which always
has exactly the four roster identities as keys. -/
structure Balances where
  alice : Int
  bob : Int
  charlie : Int
  dave : Int
deriving Repr, DecidableEq

/-- The initial all-zero balances dictionary. -/
def Balances.zero : Balances := ⟨0, 0, 0, 0⟩

/-- Dictionary lookup `balances[s]`, with the Python `dict.get(s, 0)` default
for identities outside the roster. -/
def Balances.get (b : Balances) (s : String) : Int :=
  if s = "alice" then b.alice
  else if s = "bob" then b.bob
  else if s = "charlie" then b.charlie
  else if s = "dave" then b.dave
  else 0

/-- Dictionary assignment `balances[s] = v`; a no-op for identities outside
the roster (the Python code always guards assignments with `s in balances`). -/
def Balances.set (b : Balances) (s : String) (v : Int) : Balances :=
  if s = "alice" then { b with alice := v }
  else if s = "bob" then { b with bob := v }
  else if s = "charlie" then { b with charlie := v }
  else if s = "dave" then { b with dave := v }
  else b

/-- Python's `str.lower()` (characterwise lowercasing; all identities in this
program are ASCII). -/
def pyLower (s : String) : String := ⟨s.data.map Char.toLower⟩

/-- One iteration of the replay loop in `Blockchain.calculate_balances`:
`initial_balance` transactions assign the recipient's balance outright;
all other transactions debit a roster sender and credit a roster
recipient, skipping identities outside the roster. -/
def applyTx (bal : Balances) (tx : Tx) : Balances :=
  let sender := pyLower tx.sender
  let recipient := pyLower tx.recipient
  let amount := tx.amount
  if sender = "initial_balance" then
    if users.contains recipient then bal.set recipient amount else bal
  else
    let bal1 :=
      if users.contains sender then bal.set sender (bal.get sender - amount)
      else bal
    if users.contains recipient then
      bal1.set recipient (bal1.get recipient + amount)
    else bal1

/-- `Blockchain.calculate_balances`: replay every block after the genesis
block (`self.chain[1:]`) over the all-zero dictionary. -/
def calculate_balances (c : List Block) : Balances :=
  (c.drop 1).foldl (fun bal b => applyTx bal b.transaction) Balances.zero

/-- `Blockchain.is_transaction_valid`: senders `genesis` and
`initial_balance` are exempt; any other sender must be on the roster with a
derived balance covering the amount. -/
def is_transaction_valid (c : List Block) (tx : Tx) : Bool :=
  let sender := pyLower tx.sender
  if sender = "genesis" then true
  else if sender = "initial_balance" then true
  else
    let bal := calculate_balances c
    users.contains sender && decide (tx.amount ≤ bal.get sender)

/-- `Blockchain.add_transaction`: build the lowercased transaction, reject it
with the insufficient-funds error when invalid (the chain is left untouched:
no new chain is produced), otherwise seal a fresh block after the latest one
and append it.  The `none` branch models the IndexError Python would raise on
an empty chain (never reachable in the program, which always starts from a
genesis block). -/
def add_transaction (h : HashFn) (c : List Block) (sender recipient : String)
    (amount : Int) (ts : Nat) : Except String (Block × List Block) :=
  let tx : Tx := ⟨pyLower sender, pyLower recipient, amount⟩
  if is_transaction_valid c tx then
    match c.getLast? with
    | some prev =>
        let b := mkBlock h (prev.index + 1) ts tx prev.hash
        Except.ok (b, c ++ [b])
    | none => Except.error "IndexError"
  else
    Except.error "Transaction invalid: Insufficient funds"

/-- `Blockchain.set_initial_balance`: seal and append a block whose
transaction has sender `initial_balance` and recipient the node's own
identity, with no validity check.  The Python method has no return
statement, hence the `Option Block` component of a successful result is
always `none`. -/
def set_initial_balance (h : HashFn) (c : List Block) (user_id : String)
    (balance : Int) (ts : Nat) : Except String (Option Block × List Block) :=
  let tx : Tx := ⟨"initial_balance", user_id, balance⟩
  match c.getLast? with
  | some prev =>
      let b := mkBlock h (prev.index + 1) ts tx prev.hash
      Except.ok (none, c ++ [b])
  | none => Except.error "IndexError"

/-- `Blockchain.is_chain_valid`: walk the chain from index 1; at each block
first compare the stored hash with the recomputed digest, then the
`previous_hash` link; the first mismatch returns false. -/
def is_chain_valid (h : HashFn) : List Block → Bool
  | [] => true
  | [_] => true
  | prev :: cur :: rest =>
      if cur.hash ≠ calculate_hash h cur then false
      else if cur.previous_hash ≠ prev.hash then false
      else is_chain_valid h (cur :: rest)

/-- The structural validation pass inside `Blockchain.resolve_conflicts`
(same checks as `is_chain_valid`, with the link compared before the
digest). -/
def peer_chain_valid (h : HashFn) : List Block → Bool
  | [] => true
  | [_] => true
  | prev :: cur :: rest =>
      if cur.previous_hash ≠ prev.hash then false
      else if cur.hash ≠ calculate_hash h cur then false
      else peer_chain_valid h (cur :: rest)

/-- `Blockchain.add_block_from_peer`: on a non-empty chain, reject the block
unless its index immediately follows, its `previous_hash` links to the
latest block, and its transaction is valid against the current chain; on an
empty chain all three checks are skipped.  An accepted block is appended
verbatim, stored hash included. -/
def add_block_from_peer (c : List Block) (b : Block) : Bool × List Block :=
  match c.getLast? with
  | some latest =>
      if b.index ≠ latest.index + 1 then (false, c)
      else if b.previous_hash ≠ latest.hash then (false, c)
      else if !(is_transaction_valid c b.transaction) then (false, c)
      else (true, c ++ [b])
  | none => (true, c ++ [b])

/-- The loop body of `Blockchain.resolve_conflicts`: a candidate strictly
longer than the running maximum and structurally valid becomes the new
running best. -/
def rc_step (h : HashFn) (acc : Nat × Option (List Block))
    (pc : List Block) : Nat × Option (List Block) :=
  if decide (acc.1 < pc.length) && peer_chain_valid h pc then (pc.length, some pc)
  else acc

/-- `Blockchain.resolve_conflicts`: scan all candidate chains starting from
the local length; adopt the final best candidate when one exists, otherwise
keep the local chain and return false. -/
def resolve_conflicts (h : HashFn) (c : List Block)
    (peers : List (List Block)) : Bool × List Block :=
  match (peers.foldl (rc_step h) (c.length, none)).2 with
  | some nc => (true, nc)
  | none => (false, c)

/-- The genesis transaction of `Blockchain.create_genesis_block`. -/
def genesis_tx : Tx := ⟨"genesis", "genesis", 0⟩

/-- `Blockchain.create_genesis_block`: index 0, the genesis transaction, and
the fixed previous-hash sentinel "0". -/
def genesis_block (h : HashFn) (ts : Nat) : Block :=
  mkBlock h 0 ts genesis_tx "0"

/-- Chains reachable from a fresh genesis block by successful
`add_transaction` and `set_initial_balance` calls. -/
inductive Reachable (h : HashFn) : List Block → Prop where
  | genesis (ts : Nat) : Reachable h [genesis_block h ts]
  | addTx (c : List Block) (s r : String) (a : Int) (ts : Nat) (b : Block)
      (c' : List Block) : Reachable h c →
      add_transaction h c s r a ts = Except.ok (b, c') → Reachable h c'
  | initBal (c : List Block) (u : String) (a : Int) (ts : Nat)
      (o : Option Block) (c' : List Block) : Reachable h c →
      set_initial_balance h c u a ts = Except.ok (o, c') → Reachable h c'

/-- The structural-validity property stated by the specification: every block
after index 0 stores the digest of its own fields and links to the hash of
its predecessor. -/
def ChainStructOk (h : HashFn) (c : List Block) : Prop :=
  ∀ i : Nat, (hi : i + 1 < c.length) →
    (c.get ⟨i + 1, hi⟩).hash = calculate_hash h (c.get ⟨i + 1, hi⟩) ∧
    (c.get ⟨i + 1, hi⟩).previous_hash = (c.get ⟨i, Nat.lt_of_succ_lt hi⟩).hash

/-- A concrete executable digest function used to instantiate theorems on
concrete inputs (any injective-looking encoding works; no property relies on
collision resistance). -/
def testHash : HashFn := fun i ts tx ph =>
  toString i ++ "|" ++ toString ts ++ "|" ++ tx.sender ++ "|" ++
    tx.recipient ++ "|" ++ toString tx.amount ++ "|" ++ ph

/-- Pointwise update of an identity-to-amount mapping, used by the
specification-side description of the balance replay. -/
def specUpdate (f : String → Int) (k : String) (v : Int) : String → Int :=
  fun x => if x = k then v else f x

/-- The specification's wording of one replay step, for comparison with
`applyTx`: a transaction whose sender is `initial_balance` sets the known
recipient's balance to the amount (no debiting); any other transaction
debits a known sender and credits a known recipient, silently skipping
unknown identities. -/
def specApplyTx (f : String → Int) (tx : Tx) : String → Int :=
  let s := pyLower tx.sender
  let r := pyLower tx.recipient
  if s = "initial_balance" then
    if users.contains r then specUpdate f r tx.amount else f
  else
    let f1 := if users.contains s then specUpdate f s (f s - tx.amount) else f
    if users.contains r then specUpdate f1 r (f1 r + tx.amount) else f1

/-- The specification's wording of the balance computation, for comparison
with `calculate_balances`: replay every block from index 1 onward over the
all-zero mapping. -/
def specBalances (c : List Block) : String → Int :=
  (c.drop 1).foldl (fun f b => specApplyTx f b.transaction) (fun _ => 0)

/-- A concrete genesis block over the concrete digest function. -/
def g0 : Block := genesis_block testHash 0

/-- A concrete freshly initialized chain. -/
def chain0 : List Block := [g0]

/-- A concrete well-linked successor of the genesis block. -/
def b1 : Block := mkBlock testHash 1 1 ⟨"initial_balance", "alice", 500⟩ g0.hash

/-- A concrete well-linked block whose transaction has sender `genesis` and a
roster recipient. -/
def credBlock : Block := mkBlock testHash 1 1 ⟨"genesis", "alice", 5⟩ g0.hash

/-- C10: on an empty local chain, `add_block_from_peer` skips the index,
linkage and transaction-validity checks, appends any block verbatim, and
returns true. -/
theorem add_block_from_peer_empty_chain (b : Block) :
    add_block_from_peer [] b = (true, [b]) := rfl

/-- C3: on a non-empty local chain with latest block `last`,
`add_block_from_peer` appends the block verbatim and returns true exactly
when the block's index is `last.index + 1`, its `previous_hash` is
`last.hash`, and its transaction is valid against the current chain;
otherwise it returns false and leaves the chain unchanged. -/
theorem add_block_from_peer_spec (c : List Block) (b : Block) (last : Block)
    (hlast : c.getLast? = some last) :
    add_block_from_peer c b =
      if b.index = last.index + 1 ∧ b.previous_hash = last.hash ∧
          is_transaction_valid c b.transaction = true
      then (true, c ++ [b]) else (false, c) := by
  unfold add_block_from_peer
  rw [hlast]
  by_cases h1 : b.index = last.index + 1 <;>
    by_cases h2 : b.previous_hash = last.hash <;>
      by_cases h3 : is_transaction_valid c b.transaction = true <;>
        simp [h1, h2, h3]

/-- Witness for C3 at a concrete accepted block. -/
theorem add_block_from_peer_spec_inst :
    add_block_from_peer chain0 b1 = (true, chain0 ++ [b1]) := by
  rw [add_block_from_peer_spec chain0 b1 g0 rfl]
  decide

/-- C2: `add_transaction` fails with the insufficient-funds error exactly
when the constructed (lowercased) transaction is invalid, in which case no
new chain is produced; otherwise it returns a single freshly sealed block
with index `last.index + 1` and previous hash `last.hash`, appended to the
chain, whose length grows by one. -/
theorem add_transaction_spec (h : HashFn) (c : List Block)
    (sender recipient : String) (amount : Int) (ts : Nat) (last : Block)
    (hlast : c.getLast? = some last) :
    (is_transaction_valid c ⟨pyLower sender, pyLower recipient, amount⟩ = false →
      add_transaction h c sender recipient amount ts =
        Except.error "Transaction invalid: Insufficient funds")
    ∧ (is_transaction_valid c ⟨pyLower sender, pyLower recipient, amount⟩ = true →
      ∃ b : Block,
        add_transaction h c sender recipient amount ts = Except.ok (b, c ++ [b])
        ∧ b.index = last.index + 1 ∧ b.previous_hash = last.hash
        ∧ (c ++ [b]).length = c.length + 1) := by
  constructor
  · intro hv
    simp only [add_transaction]
    rw [hv]
    simp
  · intro hv
    simp only [add_transaction]
    rw [hv, hlast]
    exact ⟨_, rfl, rfl, rfl, by simp⟩

/-- Witness for C2: a concrete successful admission on the genesis chain. -/
theorem add_transaction_spec_inst :
    ∃ b : Block,
      add_transaction testHash chain0 "alice" "bob" 0 1 = Except.ok (b, chain0 ++ [b])
      ∧ b.index = g0.index + 1 ∧ b.previous_hash = g0.hash
      ∧ (chain0 ++ [b]).length = chain0.length + 1 :=
  (add_transaction_spec testHash chain0 "alice" "bob" 0 1 g0 rfl).2 (by decide)

/-- C8 counterexample: `set_initial_balance` does not return the new block.
The Python method has no return statement, so the returned value is `None`
(here the `none` in the first component), even though the block is appended. -/
theorem set_initial_balance_returns_none_cex :
    set_initial_balance testHash chain0 "alice" 100 1
      = Except.ok ((none : Option Block),
          chain0 ++ [mkBlock testHash 1 1 ⟨"initial_balance", "alice", 100⟩ g0.hash]) := rfl

/-- C8 (amended): `set_initial_balance` appends exactly one block whose
transaction has sender `initial_balance` and recipient the node's own
identity, with no balance-validity check (it succeeds for every amount), and
returns `None` rather than the new block. -/
theorem set_initial_balance_behavior (h : HashFn) (c : List Block)
    (user_id : String) (balance : Int) (ts : Nat) (last : Block)
    (hlast : c.getLast? = some last) :
    set_initial_balance h c user_id balance ts =
      Except.ok (none,
        c ++ [mkBlock h (last.index + 1) ts ⟨"initial_balance", user_id, balance⟩
          last.hash]) := by
  unfold set_initial_balance
  rw [hlast]

/-- Witness for C8 (amended) on a concrete chain. -/
theorem set_initial_balance_behavior_inst :
    set_initial_balance testHash chain0 "alice" 100 1 =
      Except.ok (none,
        chain0 ++ [mkBlock testHash (g0.index + 1) 1 ⟨"initial_balance", "alice", 100⟩
          g0.hash]) :=
  set_initial_balance_behavior testHash chain0 "alice" 100 1 g0 rfl

/-- C9 counterexample: a block after index 0 whose transaction has sender
`genesis` and recipient `alice` is not a balance no-op — replay credits
alice with the amount. -/
theorem genesis_sender_credits_cex :
    (calculate_balances [g0, credBlock]).get "alice" = 5
    ∧ (calculate_balances [g0]).get "alice" = 0
    ∧ credBlock.transaction.sender = "genesis"
    ∧ credBlock.transaction.amount = 5 := by
  refine ⟨?_, ?_, rfl, rfl⟩ <;> decide

/-- C9 (amended): during balance replay a transaction whose lowercased
sender is `genesis` debits nobody (`genesis` is not on the roster), but it
still credits its recipient by the amount whenever the lowercased recipient
is on the roster; it is a no-op only for a recipient outside the roster
(such as the canonical genesis-to-genesis transaction). -/
theorem applyTx_genesis_sender (bal : Balances) (tx : Tx)
    (hs : pyLower tx.sender = "genesis") :
    applyTx bal tx =
      if users.contains (pyLower tx.recipient) then
        bal.set (pyLower tx.recipient) (bal.get (pyLower tx.recipient) + tx.amount)
      else bal := by
  unfold applyTx
  rw [hs]
  simp [users]

/-- Unfolding the structural-validity property over the first two blocks of
a chain. -/
theorem chainStructOk_cons (h : HashFn) (a b : Block) (rest : List Block) :
    ChainStructOk h (a :: b :: rest) ↔
      (b.hash = calculate_hash h b ∧ b.previous_hash = a.hash
        ∧ ChainStructOk h (b :: rest)) := by
  constructor
  · intro H
    have h0 := H 0 (by simp)
    refine ⟨h0.1, h0.2, ?_⟩
    intro i hi
    have hi2 : i + 1 + 1 < (a :: b :: rest).length := by
      simp only [List.length_cons] at hi ⊢
      omega
    exact H (i + 1) hi2
  · rintro ⟨h1, h2, H⟩ i hi
    match i with
    | 0 => exact ⟨h1, h2⟩
    | j + 1 =>
        have hj : j + 1 < (b :: rest).length := by
          simp only [List.length_cons] at hi ⊢
          omega
        exact H j hj

/-- The chain walk of `is_chain_valid` decides the structural-validity
property. -/
theorem is_chain_valid_iff_structOk (h : HashFn) :
    ∀ c : List Block, is_chain_valid h c = true ↔ ChainStructOk h c := by
  intro c
  induction c with
  | nil =>
      constructor
      · intro _ i hi
        simp at hi
      · intro _
        rfl
  | cons a rest ih =>
      cases rest with
      | nil =>
          constructor
          · intro _ i hi
            simp at hi
          · intro _
            rfl
      | cons b rest2 =>
          have hco := chainStructOk_cons h a b rest2
          by_cases h1 : b.hash = calculate_hash h b <;>
            by_cases h2 : b.previous_hash = a.hash <;>
              simp [is_chain_valid, h1, h2, hco, ih]

/-- The structural scan of `resolve_conflicts` decides the same property as
`is_chain_valid` (the two checks are merely swapped). -/
theorem peer_chain_valid_iff_structOk (h : HashFn) :
    ∀ c : List Block, peer_chain_valid h c = true ↔ ChainStructOk h c := by
  intro c
  induction c with
  | nil =>
      constructor
      · intro _ i hi
        simp at hi
      · intro _
        rfl
  | cons a rest ih =>
      cases rest with
      | nil =>
          constructor
          · intro _ i hi
            simp at hi
          · intro _
            rfl
      | cons b rest2 =>
          have hco := chainStructOk_cons h a b rest2
          by_cases h1 : b.hash = calculate_hash h b <;>
            by_cases h2 : b.previous_hash = a.hash <;>
              simp [peer_chain_valid, h1, h2, hco, ih]

/-- C5: `is_chain_valid` returns true exactly when every block after index 0
stores the digest of its own fields and links to its predecessor's hash; the
walk is pure (the first mismatch just returns false, the chain is never
modified). -/
theorem is_chain_valid_iff (h : HashFn) (c : List Block) :
    is_chain_valid h c = true ↔ ChainStructOk h c :=
  is_chain_valid_iff_structOk h c

/-- Appending a block whose `previous_hash` is the hash of the current last
block and whose stored hash is its own recomputed digest preserves chain
validity. -/
theorem is_chain_valid_append (h : HashFn) :
    ∀ (c : List Block) (last b : Block),
      is_chain_valid h c = true → c.getLast? = some last →
      b.previous_hash = last.hash → b.hash = calculate_hash h b →
      is_chain_valid h (c ++ [b]) = true := by
  intro c
  induction c with
  | nil =>
      intro last b _ hl _ _
      simp at hl
  | cons a rest ih =>
      intro last b hv hl hp hh
      cases rest with
      | nil =>
          have ha : a = last := by simpa using hl
          subst ha
          simp [is_chain_valid, hh, hp]
      | cons a2 rest2 =>
          rw [is_chain_valid] at hv
          split_ifs at hv with hc1 hc2
          · have hl' : (a2 :: rest2).getLast? = some last := by
              rw [List.getLast?_cons_cons] at hl
              exact hl
            have htail := ih last b hv hl' hp hh
            show is_chain_valid h (a :: a2 :: (rest2 ++ [b])) = true
            rw [is_chain_valid, if_neg hc1, if_neg hc2]
            exact htail

/-- C6: every chain built from a fresh genesis block by successful
`add_transaction` and `set_initial_balance` calls passes `is_chain_valid`. -/
theorem reachable_chain_valid (h : HashFn) (c : List Block)
    (hr : Reachable h c) : is_chain_valid h c = true := by
  induction hr with
  | genesis ts => rfl
  | addTx c s r a ts b c' _ heq ih =>
      simp only [add_transaction] at heq
      split at heq
      · split at heq
        · next prev hprev =>
            injection heq with heq2
            injection heq2 with _ hc
            subst hc
            exact is_chain_valid_append h c prev _ ih hprev rfl rfl
        · exact absurd heq (by simp)
      · exact absurd heq (by simp)
  | initBal c u a ts o c' _ heq ih =>
      simp only [set_initial_balance] at heq
      split at heq
      · next prev hprev =>
          injection heq with heq2
          injection heq2 with _ hc
          subst hc
          exact is_chain_valid_append h c prev _ ih hprev rfl rfl
      · exact absurd heq (by simp)

/-- Witness for C6: the concrete chain obtained from a genesis block by one
`set_initial_balance` call is valid. -/
theorem reachable_chain_valid_inst : is_chain_valid testHash (chain0 ++ [b1]) = true :=
  reachable_chain_valid testHash (chain0 ++ [b1])
    (Reachable.initBal chain0 "alice" 500 1 none (chain0 ++ [b1])
      (Reachable.genesis 0) rfl)

/-- C7 counterexample: for the unknown sender `eve` with amount 0 on the
genesis chain, the derived balance (0, the mapping's default) covers the
amount, yet `is_transaction_valid` returns false — the roster-membership
test rejects unknown senders regardless of amount. -/
theorem is_transaction_valid_unknown_sender_cex :
    is_transaction_valid chain0 ⟨"eve", "alice", 0⟩ = false
    ∧ (calculate_balances chain0).get "eve" = 0
    ∧ pyLower "eve" = "eve" := by
  refine ⟨?_, ?_, rfl⟩ <;> decide

/-- C7 (amended): `is_transaction_valid` is true unconditionally when the
lowercased sender is `genesis` or `initial_balance`; otherwise it is true
exactly when the lowercased sender is on the identity roster AND its derived
balance covers the amount. -/
theorem is_transaction_valid_characterization (c : List Block) (tx : Tx) :
    (pyLower tx.sender = "genesis" ∨ pyLower tx.sender = "initial_balance" →
      is_transaction_valid c tx = true)
    ∧ (pyLower tx.sender ≠ "genesis" → pyLower tx.sender ≠ "initial_balance" →
      (is_transaction_valid c tx = true ↔
        users.contains (pyLower tx.sender) = true
        ∧ tx.amount ≤ (calculate_balances c).get (pyLower tx.sender))) := by
  constructor
  · rintro (hs | hs) <;> simp [is_transaction_valid, hs]
  · intro h1 h2
    simp [is_transaction_valid, h1, h2]

/-- Lookup in the all-zero dictionary yields 0 for every identity. -/
theorem Balances.zero_get (u : String) : Balances.zero.get u = 0 := by
  unfold Balances.zero Balances.get
  split_ifs <;> rfl

/-- Assigning a roster identity and reading it back yields the assigned
value. -/
theorem Balances.get_set_self (b : Balances) (k : String) (v : Int)
    (hk : users.contains k = true) : (b.set k v).get k = v := by
  have hk2 : k = "alice" ∨ k = "bob" ∨ k = "charlie" ∨ k = "dave" := by
    simpa [users] using hk
  rcases hk2 with hk2 | hk2 | hk2 | hk2 <;>
    subst hk2 <;> simp [Balances.set, Balances.get]

/-- Assigning one identity leaves every other lookup unchanged. -/
theorem Balances.get_set_other (b : Balances) (k : String) (v : Int)
    (u : String) (hne : u ≠ k) : (b.set k v).get u = b.get u := by
  unfold Balances.set Balances.get
  split_ifs <;> simp_all

/-- An assignment to a roster identity corresponds to the specification's
pointwise map update, when the dictionary and the map agree and the value is
expressed through the current entry. -/
theorem set_get_correspond (bal : Balances) (f : String → Int) (k : String)
    (g : Int → Int) (hbf : ∀ v, bal.get v = f v)
    (hk : users.contains k = true) (u : String) :
    (bal.set k (g (bal.get k))).get u = specUpdate f k (g (f k)) u := by
  by_cases huk : u = k
  · subst huk
    rw [Balances.get_set_self bal u (g (bal.get u)) hk, hbf u]
    simp [specUpdate]
  · rw [Balances.get_set_other bal k _ u huk]
    simp only [specUpdate, if_neg huk]
    exact hbf u

/-- A guarded assignment (only performed for roster identities) corresponds
to the specification's guarded map update. -/
theorem cond_set_correspond (bal : Balances) (f : String → Int) (k : String)
    (g : Int → Int) (hbf : ∀ v, bal.get v = f v) (u : String) :
    (if users.contains k = true then bal.set k (g (bal.get k)) else bal).get u
      = (if users.contains k = true then specUpdate f k (g (f k)) else f) u := by
  by_cases hk : users.contains k = true
  · rw [if_pos hk, if_pos hk]
    exact set_get_correspond bal f k g hbf hk u
  · rw [if_neg hk, if_neg hk]
    exact hbf u

/-- One replay step of `calculate_balances` agrees pointwise with the
specification's wording of that step. -/
theorem applyTx_get (bal : Balances) (f : String → Int) (tx : Tx)
    (hbf : ∀ v, bal.get v = f v) (u : String) :
    (applyTx bal tx).get u = specApplyTx f tx u := by
  simp only [applyTx, specApplyTx]
  by_cases hs : pyLower tx.sender = "initial_balance"
  · rw [if_pos hs, if_pos hs]
    by_cases hr : users.contains (pyLower tx.recipient) = true
    · rw [if_pos hr, if_pos hr]
      exact set_get_correspond bal f _ (fun _ => tx.amount) hbf hr u
    · rw [if_neg hr, if_neg hr]
      exact hbf u
  · rw [if_neg hs, if_neg hs]
    exact cond_set_correspond _ _ _ (fun x => x + tx.amount)
      (fun v => cond_set_correspond bal f _ (fun x => x - tx.amount) hbf v) u

/-- The balance replay agrees pointwise with the specification's wording of
the replay, whatever the initial agreement. -/
theorem balances_fold_correspond (l : List Block) :
    ∀ (bal : Balances) (f : String → Int), (∀ v, bal.get v = f v) →
      ∀ v, (l.foldl (fun b bl => applyTx b bl.transaction) bal).get v
        = (l.foldl (fun g bl => specApplyTx g bl.transaction) f) v := by
  induction l with
  | nil =>
      intro bal f hbf v
      exact hbf v
  | cons x xs ih =>
      intro bal f hbf v
      exact ih (applyTx bal x.transaction) (specApplyTx f x.transaction)
        (fun w => applyTx_get bal f x.transaction hbf w) v

/-- C4: `calculate_balances` computes exactly the replay that the
specification describes — pointwise equal to `specBalances` on every
identity (the dictionary's domain is the fixed four-identity roster, with
default 0 elsewhere) — and on any single-block chain (genesis only) every
balance is 0. -/
theorem calculate_balances_spec :
    (∀ (c : List Block) (u : String),
      (calculate_balances c).get u = specBalances c u)
    ∧ (∀ b : Block, calculate_balances [b] = Balances.zero) := by
  constructor
  · intro c u
    exact balances_fold_correspond (c.drop 1) Balances.zero (fun _ => 0)
      (fun v => Balances.zero_get v) u
  · intro b
    rfl

/-- The `rc_step` guard succeeds exactly for a strictly longer, structurally
valid candidate. -/
theorem rc_step_pos (h : HashFn) (acc : Nat × Option (List Block))
    (pc : List Block) (hlt : acc.1 < pc.length)
    (hv : peer_chain_valid h pc = true) :
    rc_step h acc pc = (pc.length, some pc) := by
  unfold rc_step
  rw [if_pos]
  simp [hlt, hv]

/-- The `rc_step` guard fails for a candidate that is not both strictly
longer and structurally valid. -/
theorem rc_step_neg (h : HashFn) (acc : Nat × Option (List Block))
    (pc : List Block)
    (hq : ¬(acc.1 < pc.length ∧ peer_chain_valid h pc = true)) :
    rc_step h acc pc = acc := by
  unfold rc_step
  rw [if_neg]
  simp only [Bool.and_eq_true, decide_eq_true_eq]
  exact fun hc => hq ⟨hc.1, hc.2⟩

/-- Folding `rc_step` from an adopted candidate keeps an adopted candidate:
the final one is structurally valid, at least as long, drawn from the
already-adopted one or the remaining list, and at least as long as every
remaining structurally valid candidate. -/
theorem rc_fold_some (h : HashFn) :
    ∀ (l : List (List Block)) (y : List Block),
      peer_chain_valid h y = true →
      ∃ x : List Block,
        l.foldl (rc_step h) (y.length, some y) = (x.length, some x)
        ∧ peer_chain_valid h x = true
        ∧ y.length ≤ x.length
        ∧ (x = y ∨ x ∈ l)
        ∧ ∀ pc ∈ l, peer_chain_valid h pc = true → pc.length ≤ x.length := by
  intro l
  induction l with
  | nil =>
      intro y hy
      exact ⟨y, rfl, hy, le_refl _, Or.inl rfl, by simp⟩
  | cons pc rest ih =>
      intro y hy
      by_cases hq : y.length < pc.length ∧ peer_chain_valid h pc = true
      · obtain ⟨x, hfold, hvx, hlepc, hmem, hmax⟩ := ih pc hq.2
        refine ⟨x, ?_, hvx, le_trans (Nat.le_of_lt hq.1) hlepc, ?_, ?_⟩
        · rw [List.foldl_cons, rc_step_pos h _ pc hq.1 hq.2]
          exact hfold
        · rcases hmem with hxy | hx
          · exact Or.inr (by rw [hxy]; exact List.mem_cons_self _ _)
          · exact Or.inr (List.mem_cons_of_mem _ hx)
        · intro q hqmem hvq
          rcases List.mem_cons.mp hqmem with hq1 | hq2
          · rw [hq1]
            exact hlepc
          · exact hmax q hq2 hvq
      · obtain ⟨x, hfold, hvx, hle, hmem, hmax⟩ := ih y hy
        refine ⟨x, ?_, hvx, hle, ?_, ?_⟩
        · rw [List.foldl_cons, rc_step_neg h _ pc hq]
          exact hfold
        · rcases hmem with hxy | hx
          · exact Or.inl hxy
          · exact Or.inr (List.mem_cons_of_mem _ hx)
        · intro q hqmem hvq
          rcases List.mem_cons.mp hqmem with hq1 | hq2
          · have hnotlt : ¬ y.length < q.length := fun hlt =>
              hq ⟨by rw [hq1] at hlt; exact hlt, by rw [← hq1]; exact hvq⟩
            exact le_trans (Nat.le_of_not_lt hnotlt) hle
          · exact hmax q hq2 hvq

/-- Folding `rc_step` from the local length with no adopted candidate either
adopts nothing (and every structurally valid candidate is at most the local
length) or ends on a structurally valid candidate strictly longer than the
local length that is at least as long as every structurally valid
candidate. -/
theorem rc_fold_cases (h : HashFn) :
    ∀ (l : List (List Block)) (m : Nat),
      (l.foldl (rc_step h) (m, none) = (m, none)
        ∧ ∀ pc ∈ l, peer_chain_valid h pc = true → pc.length ≤ m)
      ∨ (∃ x : List Block,
          l.foldl (rc_step h) (m, none) = (x.length, some x)
          ∧ x ∈ l ∧ peer_chain_valid h x = true ∧ m < x.length
          ∧ ∀ pc ∈ l, peer_chain_valid h pc = true → pc.length ≤ x.length) := by
  intro l
  induction l with
  | nil =>
      intro m
      exact Or.inl ⟨rfl, by simp⟩
  | cons pc rest ih =>
      intro m
      by_cases hq : m < pc.length ∧ peer_chain_valid h pc = true
      · obtain ⟨x, hfold, hvx, hlepc, hmem, hmax⟩ := rc_fold_some h rest pc hq.2
        right
        refine ⟨x, ?_, ?_, hvx, Nat.lt_of_lt_of_le hq.1 hlepc, ?_⟩
        · rw [List.foldl_cons, rc_step_pos h _ pc hq.1 hq.2]
          exact hfold
        · rcases hmem with hxy | hx
          · rw [hxy]
            exact List.mem_cons_self _ _
          · exact List.mem_cons_of_mem _ hx
        · intro q hqmem hvq
          rcases List.mem_cons.mp hqmem with hq1 | hq2
          · rw [hq1]
            exact hlepc
          · exact hmax q hq2 hvq
      · rcases ih m with ⟨hfold, hmax⟩ | ⟨x, hfold, hxmem, hvx, hlt, hmax⟩
        · left
          refine ⟨?_, ?_⟩
          · rw [List.foldl_cons, rc_step_neg h _ pc hq]
            exact hfold
          · intro q hqmem hvq
            rcases List.mem_cons.mp hqmem with hq1 | hq2
            · have hnotlt : ¬ m < q.length := fun hlt =>
                hq ⟨by rw [hq1] at hlt; exact hlt, by rw [← hq1]; exact hvq⟩
              exact Nat.le_of_not_lt hnotlt
            · exact hmax q hq2 hvq
        · right
          refine ⟨x, ?_, List.mem_cons_of_mem _ hxmem, hvx, hlt, ?_⟩
          · rw [List.foldl_cons, rc_step_neg h _ pc hq]
            exact hfold
          · intro q hqmem hvq
            rcases List.mem_cons.mp hqmem with hq1 | hq2
            · have hnotlt : ¬ m < q.length := fun hl =>
                hq ⟨by rw [hq1] at hl; exact hl, by rw [← hq1]; exact hvq⟩
              exact le_trans (Nat.le_of_not_lt hnotlt) (Nat.le_of_lt hlt)
            · exact hmax q hq2 hvq

/-- C1: `resolve_conflicts` returns true exactly when some candidate chain
is strictly longer than the local chain and structurally valid (hash links
and recomputed digests all correct); in that case the adopted chain is such
a candidate of maximal length among the structurally valid candidates; when
no candidate qualifies it returns false and keeps the local chain. -/
theorem resolve_conflicts_longest_valid (h : HashFn) (c : List Block)
    (peers : List (List Block)) :
    ((resolve_conflicts h c peers).1 = true ↔
      ∃ pc ∈ peers, c.length < pc.length ∧ ChainStructOk h pc)
    ∧ ((resolve_conflicts h c peers).1 = false →
        (resolve_conflicts h c peers).2 = c)
    ∧ ((resolve_conflicts h c peers).1 = true →
        (resolve_conflicts h c peers).2 ∈ peers
        ∧ ChainStructOk h (resolve_conflicts h c peers).2
        ∧ c.length < (resolve_conflicts h c peers).2.length
        ∧ ∀ pc ∈ peers, ChainStructOk h pc →
            pc.length ≤ (resolve_conflicts h c peers).2.length) := by
  rcases rc_fold_cases h peers c.length with ⟨hfold, hmax⟩ |
    ⟨x, hfold, hxmem, hvx, hlt, hmax⟩
  · have hres : resolve_conflicts h c peers = (false, c) := by
      unfold resolve_conflicts
      rw [hfold]
    rw [hres]
    refine ⟨⟨fun hfalse => absurd hfalse (by simp), ?_⟩, fun _ => rfl,
      fun htrue => absurd htrue (by simp)⟩
    rintro ⟨pc, hpcmem, hlen, hok⟩
    have hv : peer_chain_valid h pc = true :=
      (peer_chain_valid_iff_structOk h pc).mpr hok
    exact absurd (hmax pc hpcmem hv) (Nat.not_le_of_lt hlen)
  · have hres : resolve_conflicts h c peers = (true, x) := by
      unfold resolve_conflicts
      rw [hfold]
    rw [hres]
    refine ⟨⟨fun _ => ⟨x, hxmem, hlt, (peer_chain_valid_iff_structOk h x).mp hvx⟩,
      fun _ => rfl⟩, fun hfalse => absurd hfalse (by simp), fun _ => ?_⟩
    exact ⟨hxmem, (peer_chain_valid_iff_structOk h x).mp hvx, hlt,
      fun pc hpc hok => hmax pc hpc ((peer_chain_valid_iff_structOk h pc).mpr hok)⟩

/-- Witness for C9 (amended) at a concrete genesis-sender transaction. -/
theorem applyTx_genesis_sender_inst :
    applyTx Balances.zero ⟨"genesis", "alice", 5⟩ =
      if users.contains (pyLower "alice") then
        Balances.zero.set (pyLower "alice")
          (Balances.zero.get (pyLower "alice") + 5)
      else Balances.zero :=
  applyTx_genesis_sender Balances.zero ⟨"genesis", "alice", 5⟩ (by decide)

end SimpleBlockchain
